import Mathlib

/-!
Verification of the summarization pipeline of the `summary-LLM` repository.

The development shallowly embeds the Python modules
`summarizer/prompt_builder.py` (language detection and LLM-response parsing)
and `summarizer/local_llm.py` (sentence-aligned chunk splitting and the
parallel chunk-summarization driver) as executable Lean functions, and proves
the specified properties about them.

Modelling conventions:
* Python strings are Lean `String`s; `len` is `String.length` (both count
  Unicode code points).
* Python whitespace (`str.strip`, the regex class `\s`) is modelled by the
  ASCII whitespace characters; the inputs exercised here contain no exotic
  Unicode spaces.
* `str.lower` is modelled for ASCII letters; CJK characters are unaffected by
  lowering in both Python and this model.
* Fallible code (Python exceptions) is modelled with `Option`: `none` means
  the call raises.
* The float comparison `chinese_chars / len(text) > 0.3` is modelled by the
  exact rational comparison `10 * chinese_chars > 3 * len(text)`; the IEEE
  double evaluation agrees with the exact one for every text of feasible
  length (they can only differ when the ratio is within about `5e-16` of
  `3/10`, which needs more than `10^15` characters).
-/

/-- ASCII whitespace as recognised by Python's `str.strip` and the regex
class `\s`. -/
def isPySpace (c : Char) : Bool :=
  c = ' ' || c = '\t' || c = '\n' || c = '\r' || c = '\x0b' || c = '\x0c'

/-- Python `str.strip()` on a character list. -/
def pyStripL (l : List Char) : List Char :=
  ((l.dropWhile isPySpace).reverse.dropWhile isPySpace).reverse

/-- Python `str.strip()`. -/
def pyStrip (s : String) : String := ⟨pyStripL s.data⟩

/-- Python `str.lstrip(chars)`: drop leading characters belonging to the set. -/
def pyLstrip (cs : List Char) (s : String) : String :=
  ⟨s.data.dropWhile (fun c => cs.contains c)⟩

/-- Python `str.lower()`, for the ASCII range (all that the embedded code
needs: the header vocabulary is ASCII or CJK, and CJK is fixed by `lower`). -/
def pyLower (s : String) : String :=
  ⟨s.data.map (fun c =>
    if 'A' ≤ c ∧ c ≤ 'Z' then Char.ofNat (c.toNat + 32) else c)⟩

/-- Python's `needle in hay` substring test, on character lists. -/
def containsSub (hay needle : List Char) : Bool :=
  needle.isPrefixOf hay ||
    match hay with
    | [] => false
    | _ :: t => containsSub t needle

/-- Python `response.split('\n')`. -/
def splitNlAux : List Char → List Char → List String
  | [], acc => [⟨acc.reverse⟩]
  | '\n' :: r, acc => (⟨acc.reverse⟩ : String) :: splitNlAux r []
  | c :: r, acc => splitNlAux r (c :: acc)

/-- Python `response.split('\n')`. -/
def splitOnNl (s : String) : List String := splitNlAux s.data []

/-- The sentence-final punctuation of `re.split(r'(?<=[.!?])\s+', text)`. -/
def isSentEnd (c : Char) : Bool := c = '.' || c = '!' || c = '?'

/-- Head of a character list is whitespace. -/
def headSpace : List Char → Bool
  | [] => false
  | c :: _ => isPySpace c

/-- Single pass implementing `re.split(r'(?<=[.!?])\s+', text)`: a maximal
whitespace run directly after `.`, `!` or `?` separates sentences and is
consumed. `skipping` is true while inside such a run (the accumulator is then
empty). -/
def sentAux : Bool → List Char → List Char → List String
  | _, [], acc => [⟨acc.reverse⟩]
  | skipping, c :: rest, acc =>
    if skipping && isPySpace c then sentAux true rest acc
    else if isSentEnd c && headSpace rest then
      (⟨(c :: acc).reverse⟩ : String) :: sentAux true rest []
    else sentAux false rest (c :: acc)

/-- Model of `re.split(r'(?<=[.!?])\s+', text)` from `LocalLLM._split_into_chunks`. -/
def splitSentences (text : String) : List String := sentAux false text.data []

/-- Total character count of a sentence list (`current_size` in the code
tracks exactly this sum, join spaces excluded). -/
def sumLen (l : List String) : Nat := (l.map String.length).sum

/-- The overlap-collection loop of `LocalLLM._split_into_chunks`: walk the
closed chunk from its end (`reversed(current_chunk)`), prepend sentences
while they fit in the overlap budget, stop at the first that does not. -/
def overlapLoop (ov : Nat) : List String → Nat → List String → List String × Nat
  | [], sz, acc => (acc, sz)
  | s :: rest, sz, acc =>
    if sz + s.length ≤ ov then overlapLoop ov rest (sz + s.length) (s :: acc)
    else (acc, sz)

/-- The sentence-accumulation loop of `LocalLLM._split_into_chunks`.
`cur` is `current_chunk`, `sz` is `current_size`. When the next sentence
would push `current_size` past `mx` and the chunk is non-empty, the chunk is
closed and the next one is seeded with the overlap suffix; the pending
sentence is then appended unconditionally. A final non-empty chunk is
flushed. -/
def chunkAux (mx ov : Nat) : List String → List String → Nat → List (List String)
  | [], cur, _ => if cur.isEmpty then [] else [cur]
  | s :: rest, cur, sz =>
    if mx < sz + s.length ∧ ¬cur.isEmpty then
      let p := overlapLoop ov cur.reverse 0 []
      cur :: chunkAux mx ov rest (p.1 ++ [s]) (p.2 + s.length)
    else
      chunkAux mx ov rest (cur ++ [s]) (sz + s.length)

/-- Model of `LocalLLM._split_into_chunks`, at the granularity of sentence lists
(each produced list is joined with single spaces to give the chunk string). -/
def chunkLists (text : String) (mx ov : Nat) : List (List String) :=
  chunkAux mx ov (splitSentences text) [] 0

/-- Python `sep.join(parts)`. -/
def pyJoin (sep : String) : List String → String
  | [] => ""
  | [s] => s
  | s :: r :: rest => s ++ sep ++ pyJoin sep (r :: rest)

/-- Model of `LocalLLM._split_into_chunks(text)` with `max_chunk_size = mx` and
`chunk_overlap = ov`: the chunks actually returned (`' '.join(current_chunk)`
for each closed chunk). -/
def splitIntoChunks (text : String) (mx ov : Nat) : List String :=
  (chunkLists text mx ov).map (pyJoin " ")

/-- Characters of the CJK Unified Ideographs block (`'一' <= c <= '鿿'`
in `PromptBuilder._detect_language`). -/
def isChineseChar (c : Char) : Bool :=
  decide (0x4e00 ≤ c.toNat ∧ c.toNat ≤ 0x9fff)

/-- Count `chinese_chars` of `PromptBuilder._detect_language`. -/
def chineseCount (s : String) : Nat := s.data.countP isChineseChar

/-- Model of `PromptBuilder._detect_language`. On the empty string the division
`chinese_chars / len(text)` raises `ZeroDivisionError`, modelled by `none`.
The float test `chinese_chars / len(text) > 0.3` is modelled exactly as
`10 * chinese_chars > 3 * len(text)`. -/
def detectLanguage (text : String) : Option String :=
  if text.length = 0 then none
  else some (if 3 * text.length < 10 * chineseCount text then "zh" else "en")

/-- The parser's current-section state (`current_section`). -/
inductive PSection where
  | noSection
  | summary
  | conclusion
  | actionItems
deriving Repr, DecidableEq

/-- The mutable record built by `PromptBuilder.parse_llm_response` together
with the section state. -/
structure ParseState where
  summary : List String
  conclusion : String
  actionItems : List String
  sec : PSection
deriving Repr, DecidableEq

/-- The structured result of `PromptBuilder.parse_llm_response`. -/
structure SummaryRecord where
  summary : List String
  conclusion : String
  actionItems : List String
deriving Repr, DecidableEq

/-- English/Chinese summary-section header vocabulary. -/
def summaryHeaders (lang : String) : List String :=
  if lang = "en" then ["summary:"] else ["摘要要點", "要點"]

/-- English/Chinese conclusion-section header vocabulary. -/
def conclusionHeaders (lang : String) : List String :=
  if lang = "en" then ["conclusion:"] else ["結論"]

/-- English/Chinese action-items header vocabulary. -/
def actionHeaders (lang : String) : List String :=
  if lang = "en" then ["action items:"] else ["行動項目", "行動"]

/-- Model of `any(header in line.lower() for header in headers)`. -/
def lineHasHeader (hs : List String) (line : String) : Bool :=
  hs.any (fun h => containsSub (pyLower line).data h.data)

/-- Model of `line.startswith(("=== Model", "You are", "Please", "IMPORTANT"))`. -/
def isNoise (line : String) : Bool :=
  (["=== Model", "You are", "Please", "IMPORTANT"] : List String).any
    (fun p => p.data.isPrefixOf line.data)

/-- The accepted content markers
`line.startswith(("*", "-", "•", "1.", "2.", "3."))`. -/
def markerStrs : List String := ["*", "-", "•", "1.", "2.", "3."]

/-- Whether a line is accepted as a content item in the summary /
action-items sections. -/
def startsWithMarker (line : String) : Bool :=
  markerStrs.any (fun m => m.data.isPrefixOf line.data)

/-- The character set of `line.lstrip("*•-123. ")`. -/
def markerChars : List Char := ['*', '•', '-', '1', '2', '3', '.', ' ']

/-- Model of `line.lstrip("*•-123. ")`. -/
def stripMarkers (line : String) : String := pyLstrip markerChars line

/-- One iteration of the line loop in `PromptBuilder.parse_llm_response`:
re-strip the line, skip it when empty, switch section on a header match,
skip noise lines, and otherwise store content according to the current
section. -/
def processLine (lang : String) (st : ParseState) (line : String) : ParseState :=
  let l := pyStrip line
  if l = "" then st
  else if lineHasHeader (summaryHeaders lang) l then { st with sec := .summary }
  else if lineHasHeader (conclusionHeaders lang) l then { st with sec := .conclusion }
  else if lineHasHeader (actionHeaders lang) l then { st with sec := .actionItems }
  else if isNoise l then st
  else
    match st.sec with
    | .summary =>
        if startsWithMarker l then
          { st with summary := st.summary ++ [stripMarkers l] }
        else st
    | .conclusion =>
        if st.conclusion = "" then { st with conclusion := l } else st
    | .actionItems =>
        if startsWithMarker l then
          { st with actionItems := st.actionItems ++ [stripMarkers l] }
        else st
    | .noSection => st

/-- Initial parse state: empty record, `current_section = None`. -/
def initState : ParseState := ⟨[], "", [], .noSection⟩

/-- Line preprocessing
`lines = [line.strip() for line in response.split('\n') if line.strip()]`
followed by the line loop. -/
def scanLines (lang : String) (response : String) : ParseState :=
  (((splitOnNl response).map pyStrip).filter (fun l => l ≠ "")).foldl
    (processLine lang) initState

/-- The post-scan default: if no conclusion was found, use the last summary
point. -/
def finalizeRecord (st : ParseState) : SummaryRecord :=
  ⟨st.summary,
   if st.conclusion = "" ∧ ¬st.summary.isEmpty then st.summary.getLastD ""
   else st.conclusion,
   st.actionItems⟩

/-- Model of `PromptBuilder.parse_llm_response`. The `except` block logs and
re-raises, so the `ZeroDivisionError` from `_detect_language` on an empty
response propagates (`none`); on any non-empty response no exception can
occur. -/
def parseLLMResponse (response : String) : Option SummaryRecord :=
  match detectLanguage response with
  | none => none
  | some lang => some (finalizeRecord (scanLines lang response))

/-- Lazy search for the closing `|>` of `re.sub(r'<\|.*?\|>', '', s)`:
index of the earliest `|>` in the list with no newline before it (`.`
does not match a newline). -/
def findClose : List Char → Option Nat
  | '|' :: '>' :: _ => some 0
  | '\n' :: _ => none
  | _ :: rest => (findClose rest).map (· + 1)
  | [] => none

/-- Model of `re.sub(r'<\|.*?\|>', '', s)` on a character list, with explicit fuel
(the fuel only bounds recursion depth; every recursive call shortens the
list, so `fuel = l.length` always suffices). -/
def removeToksF : Nat → List Char → List Char
  | 0, l => l
  | _ + 1, [] => []
  | fuel + 1, '<' :: '|' :: rest =>
    match findClose rest with
    | some k => removeToksF fuel (rest.drop (k + 2))
    | none => '<' :: removeToksF fuel ('|' :: rest)
  | fuel + 1, c :: rest => c :: removeToksF fuel rest

/-- The per-chunk cleanup in `LocalLLM.generate_summary`:
`summary.strip()` then `re.sub(r'<\|.*?\|>', '', summary)`. -/
def cleanSummary (s : String) : String :=
  let l := pyStripL s.data
  ⟨removeToksF l.length l⟩

/-- Model of `re.sub(r'\n{3,}', '\n\n', s)`: each maximal run of three or more
newlines collapses to two. `pending` counts newlines seen but not yet
emitted. -/
def collapseNlAux : List Char → Nat → List Char
  | [], pending => List.replicate (if 3 ≤ pending then 2 else pending) '\n'
  | '\n' :: rest, pending => collapseNlAux rest (pending + 1)
  | c :: rest, pending =>
    List.replicate (if 3 ≤ pending then 2 else pending) '\n' ++
      c :: collapseNlAux rest 0

/-- Model of `re.sub(r'\n{3,}', '\n\n', s)`. -/
def collapseNewlines (s : String) : String := ⟨collapseNlAux s.data 0⟩

/-- The `as_completed` collection loop of `LocalLLM.generate_summary`.
`results i` is the outcome `_generate_with_prompt` produced for chunk `i`
(`none` models a process-launch failure or non-zero exit; the empty string
models empty output after `stdout.strip()`). `order` is the order in which
the futures complete; each completed future carries its chunk index, which
selects the write position `summaries[chunk_index]`. A falsy result
(`None` or `""`) aborts the whole batch with `None`. -/
def processCompletions (results : Nat → Option String) :
    List Nat → List (Option String) → Option (List (Option String))
  | [], acc => some acc
  | i :: rest, acc =>
    match results i with
    | none => none
    | some s =>
        if s = "" then none
        else processCompletions results rest (acc.set i (some (cleanSummary s)))

/-- The chunked path of `LocalLLM.generate_summary` for `n` chunks, given
the per-chunk inference outcomes and a completion order: collect results
into `summaries` (initially `[None] * n`), abort on any falsy result, then
join the truthy entries with `"\n\n"` and collapse excessive newlines. -/
def generateSummaryModel (results : Nat → Option String) (n : Nat)
    (order : List Nat) : Option String :=
  (processCompletions results order (List.replicate n none)).map
    (fun summaries =>
      collapseNewlines
        (pyJoin "\n\n" ((summaries.filterMap id).filter (fun s => s ≠ ""))))

/-- The overlap seed that `_split_into_chunks` computes from a closed chunk:
the trailing sentences of `prev` that fit the overlap budget. -/
def ovSents (ov : Nat) (prev : List String) : List String :=
  (overlapLoop ov prev.reverse 0 []).1

/-- Strip from each chunk the overlap seed recomputed from its predecessor
and concatenate what remains (the chunks after the head of the whole list). -/
def stripTail (ov : Nat) : List String → List (List String) → List String
  | _, [] => []
  | prev, c :: cs => c.drop (ovSents ov prev).length ++ stripTail ov c cs

/-- Concatenation of all chunks after removing from every chunk (except the
first) the overlapping sentences repeated from its predecessor. -/
def stripJoin (ov : Nat) : List (List String) → List String
  | [] => []
  | c :: cs => c ++ stripTail ov c cs

/-- Size discipline of a chunk: its character sum is within the combined
chunk/overlap budget unless it contains an oversized sentence. -/
def ChunkOk (mx ov : Nat) (c : List String) : Prop :=
  sumLen c ≤ mx + ov ∨ ∃ s ∈ c, mx < s.length

/-- All stored summary / action items are in `lstrip`-normal form. -/
def GoodItems (st : ParseState) : Prop :=
  (∀ x ∈ st.summary, stripMarkers x = x) ∧
    (∀ x ∈ st.actionItems, stripMarkers x = x)

/-- The accumulated writes of a completed batch: each completed chunk writes
its cleaned summary at its own index. -/
def writeFold (results : Nat → Option String) (order : List Nat)
    (acc : List (Option String)) : List (Option String) :=
  order.foldl (fun a i => a.set i (some (cleanSummary ((results i).getD "")))) acc

theorem chunkAux_strip (mx ov : Nat) :
    ∀ (sents cur : List String) (sz : Nat),
      (chunkAux mx ov sents cur sz = [] ∧ sents = [] ∧ cur = []) ∨
      (∃ mid cs, chunkAux mx ov sents cur sz = (cur ++ mid) :: cs ∧
        mid ++ stripTail ov (cur ++ mid) cs = sents) := by
  intro sents
  induction sents with
  | nil =>
    intro cur sz
    cases cur with
    | nil => left; exact ⟨by simp [chunkAux], rfl, rfl⟩
    | cons c t =>
      right
      exact ⟨[], [], by simp [chunkAux], by simp [stripTail]⟩
  | cons s rest ih =>
    intro cur sz
    by_cases h : mx < sz + s.length ∧ ¬cur.isEmpty
    · right
      have hstep : chunkAux mx ov (s :: rest) cur sz =
          cur :: chunkAux mx ov rest (ovSents ov cur ++ [s])
            ((overlapLoop ov cur.reverse 0 []).2 + s.length) := by
        simp [chunkAux, h, ovSents]
      rcases ih (ovSents ov cur ++ [s]) ((overlapLoop ov cur.reverse 0 []).2 + s.length) with
        ⟨_, _, habs⟩ | ⟨mid', cs', h1, h2⟩
      · exact absurd habs (by simp)
      · refine ⟨[], (ovSents ov cur ++ [s] ++ mid') :: cs', ?_, ?_⟩
        · rw [hstep, h1]; simp
        · simp only [List.append_nil, stripTail]
          rw [List.append_assoc, List.drop_left]
          simp only [List.append_assoc, List.singleton_append] at h2
          simp only [List.nil_append, List.cons_append]
          rw [h2]
    · have hstep : chunkAux mx ov (s :: rest) cur sz =
          chunkAux mx ov rest (cur ++ [s]) (sz + s.length) := by
        simp only [chunkAux, if_neg h]
      rcases ih (cur ++ [s]) (sz + s.length) with ⟨_, _, habs⟩ | ⟨mid', cs', h1, h2⟩
      · exact absurd habs (by simp)
      · right
        refine ⟨s :: mid', cs', ?_, ?_⟩
        · rw [hstep, h1]; simp
        · have : cur ++ s :: mid' = (cur ++ [s]) ++ mid' := by simp
          rw [this, List.cons_append, h2]

theorem sumLen_append (a b : List String) : sumLen (a ++ b) = sumLen a + sumLen b := by
  simp [sumLen]

theorem overlapLoop_spec (ov : Nat) :
    ∀ (l : List String) (sz : Nat) (acc : List String),
      sz = sumLen acc → sz ≤ ov →
      (overlapLoop ov l sz acc).2 = sumLen (overlapLoop ov l sz acc).1 ∧
        (overlapLoop ov l sz acc).2 ≤ ov := by
  intro l
  induction l with
  | nil => intro sz acc h1 h2; simpa [overlapLoop] using ⟨h1, h2⟩
  | cons s rest ih =>
    intro sz acc h1 h2
    by_cases hfit : sz + s.length ≤ ov
    · simpa [overlapLoop, hfit] using
        ih (sz + s.length) (s :: acc) (by simp [sumLen, h1]; ring) hfit
    · simpa [overlapLoop, hfit] using ⟨h1, h2⟩

theorem chunkAux_bound (mx ov : Nat) :
    ∀ (sents cur : List String) (sz : Nat),
      sz = sumLen cur → ChunkOk mx ov cur →
      ∀ c ∈ chunkAux mx ov sents cur sz, ChunkOk mx ov c := by
  intro sents
  induction sents with
  | nil =>
    intro cur sz _ hok c hc
    by_cases hcur : cur.isEmpty <;> simp [chunkAux, hcur] at hc
    · exact hc ▸ hok
  | cons s rest ih =>
    intro cur sz hsz hok c hc
    by_cases h : mx < sz + s.length ∧ ¬cur.isEmpty
    · rw [show chunkAux mx ov (s :: rest) cur sz =
          cur :: chunkAux mx ov rest ((overlapLoop ov cur.reverse 0 []).1 ++ [s])
            ((overlapLoop ov cur.reverse 0 []).2 + s.length) from by
          simp [chunkAux, h]] at hc
      rcases List.mem_cons.1 hc with rfl | hc'
      · exact hok
      · have hov := overlapLoop_spec ov cur.reverse 0 [] (by simp [sumLen]) (Nat.zero_le ov)
        refine ih _ _ ?_ ?_ c hc'
        · rw [sumLen_append]
          simp [sumLen, hov.1]
        · by_cases hs : mx < s.length
          · exact Or.inr ⟨s, by simp, hs⟩
          · left
            rw [sumLen_append]
            have h1 : sumLen [s] = s.length := by simp [sumLen]
            have h2 : sumLen (overlapLoop ov cur.reverse 0 []).1 ≤ ov := hov.1 ▸ hov.2
            push_neg at hs
            rw [h1]
            omega
    · rw [show chunkAux mx ov (s :: rest) cur sz =
          chunkAux mx ov rest (cur ++ [s]) (sz + s.length) from by
          simp only [chunkAux, if_neg h]] at hc
      refine ih _ _ ?_ ?_ c hc
      · rw [sumLen_append]; simp [sumLen, hsz]
      · rcases Decidable.not_and_iff_or_not.1 h with hle | hemp
        · push_neg at hle
          left
          rw [sumLen_append]
          have : sumLen [s] = s.length := by simp [sumLen]
          omega
        · have : cur = [] := by
            cases cur with
            | nil => rfl
            | cons a t => simp at hemp
          subst this
          by_cases hs : mx < s.length
          · exact Or.inr ⟨s, by simp, hs⟩
          · left
            push_neg at hs
            simp only [List.nil_append]
            have : sumLen [s] = s.length := by simp [sumLen]
            omega

theorem pyJoin_space_length :
    ∀ l : List String, (pyJoin " " l).length = sumLen l + (l.length - 1) := by
  intro l
  induction l with
  | nil => simp [pyJoin, sumLen]
  | cons s rest ih =>
    cases rest with
    | nil => simp [pyJoin, sumLen]
    | cons r t =>
      show (s ++ " " ++ pyJoin " " (r :: t)).length = _
      rw [String.length_append, String.length_append, ih]
      have h1 : sumLen (s :: r :: t) = s.length + sumLen (r :: t) := by simp [sumLen]
      have h2 : (" " : String).length = 1 := rfl
      rw [h1, h2]
      simp only [List.length_cons]
      omega

theorem processLine_conclusion_stable (lang : String) (st : ParseState) (line : String)
    (h : st.conclusion ≠ "") : (processLine lang st line).conclusion = st.conclusion := by
  cases hsec : st.sec <;>
    simp only [processLine, hsec] <;>
    split_ifs <;>
    simp_all

theorem processLine_conclusion_first (lang : String) (st : ParseState) (line : String)
    (hsec : st.sec = .conclusion) (hempty : st.conclusion = "")
    (hstrip : pyStrip line = line) (hne : line ≠ "")
    (h1 : lineHasHeader (summaryHeaders lang) line = false)
    (h2 : lineHasHeader (conclusionHeaders lang) line = false)
    (h3 : lineHasHeader (actionHeaders lang) line = false)
    (h4 : isNoise line = false) :
    (processLine lang st line).conclusion = line := by
  unfold processLine
  rw [hstrip]
  rw [if_neg hne, if_neg (by simp [h1]), if_neg (by simp [h2]), if_neg (by simp [h3]),
    if_neg (by simp [h4])]
  rw [hsec]
  simp only
  rw [if_pos hempty]

theorem finalize_default_conclusion (response lang : String)
    (hdet : detectLanguage response = some lang)
    (hconc : (scanLines lang response).conclusion = "")
    (hsum : (scanLines lang response).summary ≠ []) :
    ∃ rec, parseLLMResponse response = some rec ∧
      rec.conclusion = (scanLines lang response).summary.getLastD "" := by
  refine ⟨finalizeRecord (scanLines lang response), ?_, ?_⟩
  · unfold parseLLMResponse
    rw [hdet]
  · unfold finalizeRecord
    simp only
    rw [if_pos ⟨hconc, by simpa [List.isEmpty_iff] using hsum⟩]

theorem processLine_summary_item (lang : String) (st : ParseState) (line : String)
    (hsec : st.sec = .summary)
    (hstrip : pyStrip line = line) (hne : line ≠ "")
    (h1 : lineHasHeader (summaryHeaders lang) line = false)
    (h2 : lineHasHeader (conclusionHeaders lang) line = false)
    (h3 : lineHasHeader (actionHeaders lang) line = false)
    (h4 : isNoise line = false) :
    (startsWithMarker line = true →
      processLine lang st line =
        { st with summary := st.summary ++ [stripMarkers line] }) ∧
    (startsWithMarker line = false → processLine lang st line = st) := by
  constructor <;> intro hm <;>
    simp only [processLine, hsec, hstrip, if_neg hne, h1, h2, h3, h4, hm] <;>
    simp

theorem processLine_action_item (lang : String) (st : ParseState) (line : String)
    (hsec : st.sec = .actionItems)
    (hstrip : pyStrip line = line) (hne : line ≠ "")
    (h1 : lineHasHeader (summaryHeaders lang) line = false)
    (h2 : lineHasHeader (conclusionHeaders lang) line = false)
    (h3 : lineHasHeader (actionHeaders lang) line = false)
    (h4 : isNoise line = false) :
    (startsWithMarker line = true →
      processLine lang st line =
        { st with actionItems := st.actionItems ++ [stripMarkers line] }) ∧
    (startsWithMarker line = false → processLine lang st line = st) := by
  constructor <;> intro hm <;>
    simp only [processLine, hsec, hstrip, if_neg hne, h1, h2, h3, h4, hm] <;>
    simp

theorem dropWhile_idem {α : Type} (p : α → Bool) (l : List α) :
    (l.dropWhile p).dropWhile p = l.dropWhile p := by
  induction l with
  | nil => rfl
  | cons a t ih =>
    by_cases hpa : p a
    · simp [List.dropWhile_cons, hpa, ih]
    · simp [List.dropWhile_cons, hpa]

theorem stripMarkers_idem (s : String) :
    stripMarkers (stripMarkers s) = stripMarkers s := by
  unfold stripMarkers pyLstrip
  exact congrArg String.mk (dropWhile_idem _ _)

theorem processLine_good (lang : String) (st : ParseState) (line : String)
    (h : GoodItems st) : GoodItems (processLine lang st line) := by
  obtain ⟨hs, ha⟩ := h
  cases hsec : st.sec <;>
    simp only [processLine, hsec] <;>
    split_ifs <;>
    refine ⟨fun x hx => ?_, fun x hx => ?_⟩ <;>
    first
      | exact hs x hx
      | exact ha x hx
      | (rcases List.mem_append.1 hx with hx' | hx'
         · first
             | exact hs x hx'
             | exact ha x hx'
         · rw [List.mem_singleton] at hx'
           rw [hx']
           exact stripMarkers_idem _)

theorem foldl_good (lang : String) :
    ∀ (lines : List String) (st : ParseState),
      GoodItems st → GoodItems (lines.foldl (processLine lang) st) := by
  intro lines
  induction lines with
  | nil => intro st h; exact h
  | cons l rest ih => intro st h; exact ih _ (processLine_good lang st l h)

theorem length_ne_zero_of_ne_empty (s : String) (h : s ≠ "") : s.length ≠ 0 := by
  intro h0
  apply h
  cases s with
  | mk l =>
    have hl : l.length = 0 := h0
    have : l = [] := List.length_eq_zero.mp hl
    subst this
    rfl

theorem ratio_gt_iff (c n : Nat) (hn : n ≠ 0) :
    ((3 : ℚ) / 10 < (c : ℚ) / (n : ℚ)) ↔ 3 * n < 10 * c := by
  have hnq : (0 : ℚ) < (n : ℚ) := by
    exact_mod_cast Nat.pos_of_ne_zero hn
  rw [div_lt_div_iff₀ (by norm_num) hnq]
  constructor
  · intro h
    have h3 : (3 * n : ℚ) < (10 * c : ℚ) := by linarith
    exact_mod_cast h3
  · intro h
    have : (3 * n : ℚ) < (10 * c : ℚ) := by exact_mod_cast h
    push_cast at this ⊢
    linarith

theorem processCompletions_abort (results : Nat → Option String) :
    ∀ (order : List Nat) (acc : List (Option String)) (i : Nat),
      i ∈ order → (results i = none ∨ results i = some "") →
      processCompletions results order acc = none := by
  intro order
  induction order with
  | nil => intro acc i hi; exact absurd hi (List.not_mem_nil i)
  | cons j rest ih =>
    intro acc i hi hfail
    cases hj : results j with
    | none => simp [processCompletions, hj]
    | some s =>
      by_cases hs : s = ""
      · simp [processCompletions, hj, hs]
      · simp only [processCompletions, hj, if_neg hs]
        have hij : i ≠ j := by
          intro heq
          subst heq
          rcases hfail with hf | hf <;> rw [hf] at hj
          · exact Option.noConfusion hj
          · injection hj with hj'
            exact hs hj'.symm
        exact ih _ i (by rcases List.mem_cons.1 hi with h | h; exact absurd h hij; exact h) hfail

theorem processCompletions_ok (results : Nat → Option String) :
    ∀ (order : List Nat) (acc : List (Option String)),
      (∀ i ∈ order, ∃ s, results i = some s ∧ s ≠ "") →
      processCompletions results order acc = some (writeFold results order acc) := by
  intro order
  induction order with
  | nil => intro acc _; rfl
  | cons j rest ih =>
    intro acc h
    obtain ⟨s, hs, hne⟩ := h j (List.mem_cons_self j rest)
    simp only [processCompletions, hs, if_neg hne]
    have hgd : (results j).getD "" = s := by rw [hs]; rfl
    have : writeFold results (j :: rest) acc =
        writeFold results rest (acc.set j (some (cleanSummary s))) := by
      unfold writeFold
      simp [hgd]
    rw [this]
    exact ih _ (fun i hi => h i (List.mem_cons_of_mem j hi))

theorem writeFold_getElem (results : Nat → Option String) :
    ∀ (order : List Nat) (acc : List (Option String)) (j : Nat),
      (writeFold results order acc)[j]? =
        if j ∈ order ∧ j < acc.length
        then some (some (cleanSummary ((results j).getD "")))
        else acc[j]? := by
  intro order
  induction order with
  | nil =>
    intro acc j
    simp [writeFold]
  | cons k rest ih =>
    intro acc j
    have hstep : writeFold results (k :: rest) acc =
        writeFold results rest
          (acc.set k (some (cleanSummary ((results k).getD "")))) := rfl
    rw [hstep, ih]
    rw [List.length_set]
    by_cases hjr : j ∈ rest ∧ j < acc.length
    · rw [if_pos hjr, if_pos ⟨List.mem_cons_of_mem k hjr.1, hjr.2⟩]
    · rw [if_neg hjr]
      by_cases hjk : j = k
      · subst hjk
        by_cases hlt : j < acc.length
        · rw [List.getElem?_set_eq_of_lt _ hlt,
            if_pos ⟨List.mem_cons_self j rest, hlt⟩]
        · rw [if_neg (fun hc => hlt hc.2)]
          have h1 : acc.length ≤ j := Nat.le_of_not_lt hlt
          rw [List.getElem?_eq_none (by rw [List.length_set]; exact h1),
            List.getElem?_eq_none h1]
      · rw [List.getElem?_set_ne (fun hc => hjk hc.symm)]
        rw [if_neg (fun hc => hjr ⟨?_, hc.2⟩)]
        rcases List.mem_cons.1 hc.1 with h | h
        · exact absurd h hjk
        · exact h

theorem processCompletions_ordered (results : Nat → Option String) (n : Nat)
    (order : List Nat) (hperm : order.Perm (List.range n))
    (hok : ∀ i, i < n → ∃ s, results i = some s ∧ s ≠ "") :
    processCompletions results order (List.replicate n none) =
      some ((List.range n).map
        (fun i => some (cleanSummary ((results i).getD "")))) := by
  have hok' : ∀ i ∈ order, ∃ s, results i = some s ∧ s ≠ "" := fun i hi =>
    hok i (List.mem_range.1 (hperm.mem_iff.1 hi))
  rw [processCompletions_ok results order _ hok']
  congr 1
  apply List.ext_getElem?
  intro j
  rw [writeFold_getElem, List.length_replicate]
  by_cases hj : j < n
  · rw [if_pos ⟨hperm.mem_iff.2 (List.mem_range.2 hj), hj⟩]
    rw [List.getElem?_map, List.getElem?_range hj]
    rfl
  · rw [if_neg (fun hc => hj hc.2)]
    rw [List.getElem?_eq_none (by rw [List.length_replicate]; omega),
      List.getElem?_eq_none (by rw [List.length_map, List.length_range]; omega)]

/-- C1 counterexample: with `maxChunkSize = 10`, `overlapSize = 8`, the text
"aaaaaaa. bbbbbbb." (two sentences of 8 characters each, both within the
maximum) produces a second chunk of 17 characters, exceeding the maximum
although it is not a single oversized sentence: the overlap seed plus the
next sentence is appended without a size re-check, and join spaces are not
counted by `current_size`. -/
theorem C1_counterexample :
    splitIntoChunks "aaaaaaa. bbbbbbb." 10 8 = ["aaaaaaa.", "aaaaaaa. bbbbbbb."] ∧
      ("aaaaaaa. bbbbbbb." : String).length = 17 ∧
      chunkLists "aaaaaaa. bbbbbbb." 10 8 = [["aaaaaaa."], ["aaaaaaa.", "bbbbbbb."]] ∧
      ("aaaaaaa." : String).length ≤ 10 ∧ ("bbbbbbb." : String).length ≤ 10 :=
  ⟨rfl, rfl, rfl, by decide, by decide⟩

/-- C1 (amended): every chunk returned by `_split_into_chunks` has size at
most `maxChunkSize + overlapSize` plus one join space per additional
sentence in the chunk, except that a chunk may exceed this bound only when
it contains a sentence that alone exceeds `maxChunkSize` (such a sentence is
kept whole, never dropped or truncated). -/
theorem C1_chunk_size_bound (text : String) (mx ov : Nat) (c : List String)
    (hc : c ∈ chunkLists text mx ov) :
    (pyJoin " " c).length ≤ mx + ov + (c.length - 1) ∨ ∃ s ∈ c, mx < s.length := by
  have hok := chunkAux_bound mx ov (splitSentences text) [] 0 (by simp [sumLen])
    (Or.inl (by simp [sumLen])) c hc
  rcases hok with hle | hbig
  · left
    rw [pyJoin_space_length]
    omega
  · exact Or.inr hbig

/-- C1 witness: the bound evaluated on the first chunk of a concrete split. -/
theorem C1_chunk_size_bound_witness :
    (["aaaaaaa."] ∈ chunkLists "aaaaaaa. bbbbbbb." 10 8) ∧
      ((pyJoin " " ["aaaaaaa."]).length ≤ 10 + 8 + (["aaaaaaa."].length - 1) ∨
        ∃ s ∈ (["aaaaaaa."] : List String), 10 < s.length) :=
  ⟨by decide, C1_chunk_size_bound "aaaaaaa. bbbbbbb." 10 8 ["aaaaaaa."] (by decide)⟩

/-- C2 (confirmed): for every input text and both size parameters, removing
from each chunk the overlapping trailing sentences repeated from its
predecessor and concatenating the chunks in order reconstructs the original
sentence sequence exactly — every sentence once, in order, none dropped. -/
theorem C2_strip_overlap_reconstructs (text : String) (mx ov : Nat) :
    stripJoin ov (chunkLists text mx ov) = splitSentences text := by
  unfold chunkLists
  rcases chunkAux_strip mx ov (splitSentences text) [] 0 with
    ⟨h1, h2, _⟩ | ⟨mid, cs, h1, h2⟩
  · rw [h1, h2]; rfl
  · rw [h1]
    simp only [List.nil_append] at h1 h2 ⊢
    simpa [stripJoin] using h2

/-- C3 (code bug): `_detect_language` on a zero-length text does not default
to "en"; the division `chinese_chars / len(text)` is unguarded and raises
`ZeroDivisionError` (modelled by `none`). The repository's own test
`test_parse_llm_response_empty` requires the empty response to be handled,
so the claim reflects the intent and the code is the slip. -/
theorem C3_detect_empty_raises : detectLanguage "" = none := rfl

/-- C4 counterexample: in the summary section, lines beginning with "4." or
"5." are NOT accepted as content — both parses return an empty summary,
refuting the claim that ordinals through `5.` are accepted. -/
theorem C4_counterexample :
    parseLLMResponse "summary:\n4. four" = some ⟨[], "", []⟩ ∧
      parseLLMResponse "summary:\n5. five" = some ⟨[], "", []⟩ :=
  ⟨rfl, rfl⟩

/-- C4 (amended): while the current section is summary or action_items, a
non-header non-noise line is accepted as a content item if and only if it
begins with a bullet marker (`*`, `-`, `•`) or one of the numeric ordinals
`1.`, `2.`, `3.` (ordinals `4.` and `5.` are not accepted and such lines are
ignored); when accepted, the marker characters are stripped from the left
before the line is stored. -/
theorem C4_marker_acceptance :
    (∀ (lang : String) (st : ParseState) (line : String),
      st.sec = .summary → pyStrip line = line → line ≠ "" →
      lineHasHeader (summaryHeaders lang) line = false →
      lineHasHeader (conclusionHeaders lang) line = false →
      lineHasHeader (actionHeaders lang) line = false →
      isNoise line = false →
      (startsWithMarker line = true →
        processLine lang st line =
          { st with summary := st.summary ++ [stripMarkers line] }) ∧
      (startsWithMarker line = false → processLine lang st line = st)) ∧
    (∀ (lang : String) (st : ParseState) (line : String),
      st.sec = .actionItems → pyStrip line = line → line ≠ "" →
      lineHasHeader (summaryHeaders lang) line = false →
      lineHasHeader (conclusionHeaders lang) line = false →
      lineHasHeader (actionHeaders lang) line = false →
      isNoise line = false →
      (startsWithMarker line = true →
        processLine lang st line =
          { st with actionItems := st.actionItems ++ [stripMarkers line] }) ∧
      (startsWithMarker line = false → processLine lang st line = st)) :=
  ⟨processLine_summary_item, processLine_action_item⟩

/-- C4 witness: a `1.` line is stored stripped; a `4.` line is ignored. -/
theorem C4_marker_acceptance_witness :
    processLine "en" ⟨[], "", [], .summary⟩ "1. hi" = ⟨["hi"], "", [], .summary⟩ ∧
      processLine "en" ⟨[], "", [], .summary⟩ "4. hi" = ⟨[], "", [], .summary⟩ := by
  constructor
  · have h := (C4_marker_acceptance.1 "en" ⟨[], "", [], .summary⟩ "1. hi" rfl
      (by decide) (by decide) (by decide) (by decide) (by decide) (by decide)).1
      (by decide)
    exact h.trans (by decide)
  · exact (C4_marker_acceptance.1 "en" ⟨[], "", [], .summary⟩ "4. hi" rfl
      (by decide) (by decide) (by decide) (by decide) (by decide) (by decide)).2
      (by decide)

/-- C5 (code bug): `parse_llm_response("")` does not return the
empty-but-valid record; the language detection divides by the zero length
and the handler re-raises, so the call raises (modelled by `none`). This
contradicts the repository's own test `test_parse_llm_response_empty`,
which asserts the empty record is returned. -/
theorem C5_parse_empty_raises : parseLLMResponse "" = none := rfl

/-- C6 (confirmed): (1) once a conclusion has been recorded, no later line
in any section changes it — within the conclusion section only the first
non-empty line encountered is kept; (2) in the conclusion section, a
non-header non-noise non-empty line is recorded as the conclusion when none
is recorded yet; (3) whenever the scan records no conclusion line but at
least one summary point exists, the returned conclusion equals the last
summary point. -/
theorem C6_conclusion_semantics :
    (∀ (lang : String) (st : ParseState) (line : String), st.conclusion ≠ "" →
      (processLine lang st line).conclusion = st.conclusion) ∧
    (∀ (lang : String) (st : ParseState) (line : String),
      st.sec = .conclusion → st.conclusion = "" → pyStrip line = line →
      line ≠ "" →
      lineHasHeader (summaryHeaders lang) line = false →
      lineHasHeader (conclusionHeaders lang) line = false →
      lineHasHeader (actionHeaders lang) line = false →
      isNoise line = false →
      (processLine lang st line).conclusion = line) ∧
    (∀ (response lang : String), detectLanguage response = some lang →
      (scanLines lang response).conclusion = "" →
      (scanLines lang response).summary ≠ [] →
      ∃ rec, parseLLMResponse response = some rec ∧
        rec.conclusion = (scanLines lang response).summary.getLastD "") :=
  ⟨processLine_conclusion_stable, processLine_conclusion_first,
    finalize_default_conclusion⟩

/-- C6 witness: a recorded conclusion survives a later line; the first line
in the conclusion section is recorded; a conclusion-free scan with summary
points defaults to the last point. -/
theorem C6_conclusion_semantics_witness :
    (processLine "en" ⟨[], "done", [], .conclusion⟩ "later").conclusion = "done" ∧
      (processLine "en" ⟨[], "", [], .conclusion⟩ "story").conclusion = "story" ∧
      ∃ rec, parseLLMResponse "summary:\n1. one\n2. two" = some rec ∧
        rec.conclusion =
          (scanLines "en" "summary:\n1. one\n2. two").summary.getLastD "" :=
  ⟨C6_conclusion_semantics.1 "en" ⟨[], "done", [], .conclusion⟩ "later" (by decide),
   C6_conclusion_semantics.2.1 "en" ⟨[], "", [], .conclusion⟩ "story" rfl rfl
     (by decide) (by decide) (by decide) (by decide) (by decide) (by decide),
   C6_conclusion_semantics.2.2 "summary:\n1. one\n2. two" "en" (by decide)
     (by decide) (by decide)⟩

/-- C7 counterexample: the summary-section line "*" is accepted (it begins
with a bullet marker) and stored after stripping, which leaves the empty
string — so an empty string appears as an element of `summary`, refuting
the non-emptiness invariant. -/
theorem C7_counterexample :
    parseLLMResponse "summary:\n*" = some ⟨[""], "", []⟩ := rfl

/-- C7 (amended): `summary` and `action_items` are sequences (possibly
empty) of strings each in marker-stripped normal form — stripping the
bullet/ordinal marker characters again changes nothing — and such an
element may be the empty string when the accepted line consists only of
marker characters; `conclusion` is a string (possibly empty). -/
theorem C7_items_normal_form (response : String) (rec : SummaryRecord)
    (h : parseLLMResponse response = some rec) :
    (∀ x ∈ rec.summary, stripMarkers x = x) ∧
      (∀ x ∈ rec.actionItems, stripMarkers x = x) := by
  unfold parseLLMResponse at h
  cases hdet : detectLanguage response with
  | none => rw [hdet] at h; exact absurd h (by simp)
  | some lang =>
    rw [hdet] at h
    have hrec : rec = finalizeRecord (scanLines lang response) := by
      injection h with h'; exact h'.symm
    have hgood : GoodItems (scanLines lang response) :=
      foldl_good lang _ initState ⟨by simp [initState], by simp [initState]⟩
    subst hrec
    exact ⟨hgood.1, hgood.2⟩

/-- C7 witness: the normal-form property evaluated on the record parsed
from a concrete response. -/
theorem C7_items_normal_form_witness :
    (∀ x ∈ (⟨[""], "", []⟩ : SummaryRecord).summary, stripMarkers x = x) ∧
      (∀ x ∈ (⟨[""], "", []⟩ : SummaryRecord).actionItems, stripMarkers x = x) :=
  C7_items_normal_form "summary:\n*" ⟨[""], "", []⟩ rfl

/-- C8 (confirmed): on every non-empty text, `_detect_language` returns
"zh" exactly when the ratio of CJK Unified Ideographs to total characters
exceeds 3/10 and "en" exactly otherwise, and it never fails. The function
is a pure Lean function of the text, so determinism, purity and idempotence
of detection hold by construction. -/
theorem C8_detect_threshold (text : String) (h : text ≠ "") :
    ((detectLanguage text = some "zh") ↔
      (3 : ℚ) / 10 < (chineseCount text : ℚ) / (text.length : ℚ)) ∧
    ((detectLanguage text = some "en") ↔
      ¬((3 : ℚ) / 10 < (chineseCount text : ℚ) / (text.length : ℚ))) ∧
    (detectLanguage text).isSome = true := by
  have hlen := length_ne_zero_of_ne_empty text h
  rw [ratio_gt_iff (chineseCount text) text.length hlen]
  unfold detectLanguage
  rw [if_neg hlen]
  by_cases hc : 3 * text.length < 10 * chineseCount text
  · rw [if_pos hc]
    refine ⟨⟨fun _ => hc, fun _ => rfl⟩, ⟨fun habs => ?_, fun hn => absurd hc hn⟩, rfl⟩
    · injection habs with habs'
      exact absurd habs'.symm (by decide)
  · rw [if_neg hc]
    refine ⟨⟨fun habs => ?_, fun hcc => absurd hcc hc⟩, ⟨fun _ => hc, fun _ => rfl⟩, rfl⟩
    · injection habs with habs'
      exact absurd habs'.symm (by decide)

/-- C8 witness: a single CJK character has ratio 1 and is detected as
Chinese. -/
theorem C8_detect_threshold_witness : detectLanguage "中" = some "zh" := by
  apply (C8_detect_threshold "中" (by decide)).1.mpr
  have e1 : chineseCount "中" = 1 := rfl
  have e2 : ("中" : String).length = 1 := rfl
  rw [e1, e2]
  norm_num

/-- C9 (confirmed): during chunked summarization, if the inference outcome
for any chunk is a failure (`None` from a launch failure or non-zero exit)
or empty output, the whole batch returns `None`, whatever the completion
order of the chunk invocations — partial results of other chunks are
discarded, never returned. -/
theorem C9_fail_fast (results : Nat → Option String) (n : Nat) (order : List Nat)
    (i : Nat) (hperm : order.Perm (List.range n)) (hi : i < n)
    (hfail : results i = none ∨ results i = some "") :
    generateSummaryModel results n order = none := by
  unfold generateSummaryModel
  rw [processCompletions_abort results order _ i
    (hperm.mem_iff.2 (List.mem_range.2 hi)) hfail]
  rfl

/-- C9 witness: a one-chunk batch whose chunk fails returns `None`. -/
theorem C9_fail_fast_witness :
    generateSummaryModel (fun _ => none) 1 [0] = none :=
  C9_fail_fast (fun _ => none) 1 [0] 0 (by decide) (by decide) (Or.inl rfl)

/-- C10 (confirmed): when all chunk invocations succeed, the batch output is
identical for every completion order of the futures, and the collected
summaries sit in original chunk-index order — entry `i` holds the cleaned
result of chunk `i` — because each completed future carries its chunk index
explicitly. -/
theorem C10_order_independence (results : Nat → Option String) (n : Nat)
    (order : List Nat) (hperm : order.Perm (List.range n))
    (hok : ∀ i, i < n → ∃ s, results i = some s ∧ s ≠ "") :
    generateSummaryModel results n order =
        generateSummaryModel results n (List.range n) ∧
      processCompletions results order (List.replicate n none) =
        some ((List.range n).map
          (fun i => some (cleanSummary ((results i).getD "")))) := by
  constructor
  · unfold generateSummaryModel
    rw [processCompletions_ordered results n order hperm hok,
      processCompletions_ordered results n (List.range n) (List.Perm.refl _) hok]
  · exact processCompletions_ordered results n order hperm hok

/-- C10 witness: a two-chunk batch completing in reversed order yields the
same output as in-order completion, with entries in index order. -/
theorem C10_order_independence_witness :
    generateSummaryModel (fun _ => some "ok") 2 [1, 0] =
        generateSummaryModel (fun _ => some "ok") 2 (List.range 2) ∧
      processCompletions (fun _ => some "ok") [1, 0] (List.replicate 2 none) =
        some ((List.range 2).map
          (fun _ => some (cleanSummary "ok"))) :=
  C10_order_independence (fun _ => some "ok") 2 [1, 0] (by decide)
    (fun i _ => ⟨"ok", rfl, by decide⟩)
